import Mathlib

/-!
Verification of the blockstm parallel-execution scheduler (package `blockstm`):
shallow embedding of the scheduler step loop, abort/validation bookkeeping,
settle dispatch, dependency-graph diagnostics and the priority queue, with
theorems about the specified properties.

Machine integers are modelled as `Int`; Go's integer division truncates
toward zero, which is `Int.tdiv`.
-/

namespace BlockSTM

/-- Storage keys are opaque identifiers compared only for equality. -/
abbrev Key := Nat

/-- A `Version` identifies one specific execution attempt of a transaction:
(transaction index, incarnation). -/
structure Version where
  TxnIndex : Int
  Incarnation : Int
deriving DecidableEq, Repr

/-- Where a recorded read obtained its value: the pre-block base state, or a
specific prior writer's versioned entry in the multi-version map. -/
inductive ReadOrigin where
  | fromBase
  | fromMap (v : Version)
deriving DecidableEq, Repr

/-- A recorded read: key plus the version last observed (or base). -/
structure ReadDescriptor where
  Path : Key
  Origin : ReadOrigin
deriving DecidableEq, Repr

/-- A recorded write: key plus the version that produced it. -/
structure WriteDescriptor where
  Path : Key
  V : Version
deriving DecidableEq, Repr

abbrev TxnInput := List ReadDescriptor
abbrev TxnOutput := List WriteDescriptor

/-- The abort-target estimate synthesized when a transaction aborts without a
known dependency (executor lines: `newEstimate := estimate + (estimate+tx)/2;
if newEstimate >= tx { newEstimate = tx - 1 }`). -/
def synthEstimate (estimate tx : Int) : Int :=
  let newEstimate := estimate + Int.tdiv (estimate + tx) 2
  if newEstimate ≥ tx then tx - 1 else newEstimate

/-- `estimate := 0; if len(estimateDeps[tx]) > 0 { estimate = last }`. -/
def lastEstimate (l : List Int) : Int :=
  l.getLast?.getD 0

/-- One abort-without-dependency records a fresh estimate at the end of the
transaction's estimate list. -/
def recordAbortEstimate (tx : Int) (l : List Int) : List Int :=
  l ++ [synthEstimate (lastEstimate l) tx]

/-- The read/write/all-write sets of the latest incarnation of every
transaction, indexed by transaction index. -/
structure TxnInputOutput where
  inputs : List TxnInput
  outputs : List TxnOutput
  allOutputs : List TxnOutput
deriving DecidableEq, Repr

/-- Modelled from the spec: `MakeTxnInputOutput` (txio implementation absent
from src) allocates the structure with one empty entry per transaction. -/
def MakeTxnInputOutput (numTx : Nat) : TxnInputOutput :=
  { inputs := List.replicate numTx []
    outputs := List.replicate numTx []
    allOutputs := List.replicate numTx [] }

/-- Index a per-transaction list by a Go `int` transaction index. -/
def getTx {α : Type} (l : List α) (tx : Int) (d : α) : α :=
  if 0 ≤ tx then l.getD tx.toNat d else d

/-- Update a per-transaction list at a Go `int` transaction index. -/
def setTx {α : Type} (l : List α) (tx : Int) (x : α) : List α :=
  if 0 ≤ tx then l.set tx.toNat x else l

/-- Modelled from the spec: `recordRead` stores the latest incarnation's
read-set for a transaction. -/
def TxnInputOutput.recordRead (io : TxnInputOutput) (tx : Int) (input : TxnInput) :
    TxnInputOutput :=
  { io with inputs := setTx io.inputs tx input }

/-- Modelled from the spec: `recordWrite` stores the latest incarnation's
write-set for a transaction. -/
def TxnInputOutput.recordWrite (io : TxnInputOutput) (tx : Int) (output : TxnOutput) :
    TxnInputOutput :=
  { io with outputs := setTx io.outputs tx output }

/-- Modelled from the spec: `recordAllWrite` stores the accepted all-write-set
(every key ever written by any incarnation) for a transaction. -/
def TxnInputOutput.recordAllWrite (io : TxnInputOutput) (tx : Int) (output : TxnOutput) :
    TxnInputOutput :=
  { io with allOutputs := setTx io.allOutputs tx output }

/-- The recorded read-set of a transaction. -/
def TxnInputOutput.ReadSet (io : TxnInputOutput) (tx : Int) : TxnInput :=
  getTx io.inputs tx []

/-- The recorded all-write-set of a transaction. -/
def TxnInputOutput.AllWriteSet (io : TxnInputOutput) (tx : Int) : TxnOutput :=
  getTx io.allOutputs tx []

/-- Modelled from the spec: `hasNewWrite` (txio implementation absent from
src) — whether the new write-set contains a key that the compared set does
not (a newly-written key that was not written before). -/
def hasNewWrite (txo : TxnOutput) (cmpSet : TxnOutput) : Bool :=
  txo.any (fun w => ¬ cmpSet.any (fun v => v.Path = w.Path))

/-- A multi-version cell: either a concrete write of some incarnation or the
ESTIMATE tombstone left by an invalidated writer. -/
inductive MVCell where
  | estimate
  | written (incarnation : Int)
deriving DecidableEq, Repr

/-- One entry of the multi-version map: a (key, writer index) slot holding a
cell.  Invariant: at most one entry per (key, transaction index). -/
structure MVEntry where
  path : Key
  txIdx : Int
  cell : MVCell
deriving DecidableEq, Repr

/-- Modelled from the spec: the multi-version hash map (implementation absent
from src), flattened to its entry list; per key an entry per writer index. -/
abbrev MVHashMap := List MVEntry

/-- Modelled from the spec: `Delete` removes a transaction's entry for a key
entirely (used when a later incarnation no longer writes that key). -/
def MVDelete (m : MVHashMap) (k : Key) (tx : Int) : MVHashMap :=
  m.filter (fun e => ¬ (e.path = k ∧ e.txIdx = tx))

/-- Modelled from the spec: `MarkEstimate` replaces a transaction's entry for
a key with the ESTIMATE tombstone, forcing dependent readers to abort. -/
def MVMarkEstimate (m : MVHashMap) (k : Key) (tx : Int) : MVHashMap :=
  m.map (fun e => if e.path = k ∧ e.txIdx = tx then { e with cell := MVCell.estimate } else e)

/-- Modelled from the spec: `Read` returns the entry of the highest-indexed
writer of the key strictly below the reading transaction's index, or none
when no such writer exists (the read then falls through to base state). -/
def mvRead (m : MVHashMap) (k : Key) (txIdx : Int) : Option MVEntry :=
  m.foldl
    (fun acc e =>
      if e.path = k ∧ e.txIdx < txIdx then
        match acc with
        | none => some e
        | some b => if b.txIdx < e.txIdx then some e else acc
      else acc)
    none

/-- Whether one recorded read still matches what the store currently answers
for that key at the reading transaction's index. -/
def readValid (m : MVHashMap) (txIdx : Int) (rd : ReadDescriptor) : Bool :=
  match mvRead m rd.Path txIdx, rd.Origin with
  | none, ReadOrigin.fromBase => true
  | some e, ReadOrigin.fromMap v =>
      match e.cell with
      | MVCell.estimate => false
      | MVCell.written inc => e.txIdx = v.TxnIndex ∧ inc = v.Incarnation
  | _, _ => false

/-- Modelled from the spec: `ValidateVersion` (txio implementation absent from
src) re-checks that every entry of the recorded read-set still matches the
version actually present in the store; a read that now lands on an ESTIMATE
or on a different version fails. -/
def ValidateVersion (tx : Int) (lastInputOutput : TxnInputOutput) (versionedData : MVHashMap) :
    Bool :=
  (lastInputOutput.ReadSet tx).all (readValid versionedData tx)

/-- Append an element unless already present (duplicate-free list used as the
set representation of the status manager's index sets). -/
def insertUnique (l : List Int) (x : Int) : List Int :=
  if x ∈ l then l else l ++ [x]

/-- Remove an element from the list. -/
def removeAll (l : List Int) (x : Int) : List Int :=
  l.filter (fun y => y ≠ x)

/-- The minimum of a list of ints, or none when empty. -/
def listMin (l : List Int) : Option Int :=
  l.foldl
    (fun acc x =>
      match acc with
      | none => some x
      | some b => some (min b x))
    none

/-- Modelled from the spec: the task status tracker (status implementation
absent from src).  Partitions the index space into pending / in-progress /
complete, with a dependency pair list `(blocker, blocked)` and derived
blocked status. -/
structure TaskStatusManager where
  pending : List Int
  inProgress : List Int
  complete : List Int
  blockers : List (Int × Int)
deriving DecidableEq, Repr

/-- Modelled from the spec: a fresh tracker with every index of `[0, n)`
pending. -/
def makeStatusManager (n : Nat) : TaskStatusManager :=
  { pending := (List.range n).map Int.ofNat
    inProgress := []
    complete := []
    blockers := [] }

def TaskStatusManager.checkPending (m : TaskStatusManager) (t : Int) : Bool :=
  t ∈ m.pending

def TaskStatusManager.checkInProgress (m : TaskStatusManager) (t : Int) : Bool :=
  t ∈ m.inProgress

def TaskStatusManager.checkComplete (m : TaskStatusManager) (t : Int) : Bool :=
  t ∈ m.complete

/-- Modelled from the spec: an index is blocked while some recorded blocker
has not released it. -/
def TaskStatusManager.isBlocked (m : TaskStatusManager) (t : Int) : Bool :=
  m.blockers.any (fun p => p.2 = t)

def TaskStatusManager.pushPending (m : TaskStatusManager) (t : Int) : TaskStatusManager :=
  { m with pending := insertUnique m.pending t }

def TaskStatusManager.pushPendingSet (m : TaskStatusManager) (s : List Int) :
    TaskStatusManager :=
  s.foldl TaskStatusManager.pushPending m

def TaskStatusManager.clearPending (m : TaskStatusManager) (t : Int) : TaskStatusManager :=
  { m with pending := removeAll m.pending t }

def TaskStatusManager.clearInProgress (m : TaskStatusManager) (t : Int) : TaskStatusManager :=
  { m with inProgress := removeAll m.inProgress t }

def TaskStatusManager.clearComplete (m : TaskStatusManager) (t : Int) : TaskStatusManager :=
  { m with complete := removeAll m.complete t }

/-- Modelled from the spec: `minPending` is the smallest pending index, `-1`
when there is none. -/
def TaskStatusManager.minPending (m : TaskStatusManager) : Int :=
  (listMin m.pending).getD (-1)

/-- Modelled from the spec: `takeNextPending` removes the smallest pending
index and marks it in-progress; yields `-1` when nothing is pending. -/
def TaskStatusManager.takeNextPending (m : TaskStatusManager) : Int × TaskStatusManager :=
  match listMin m.pending with
  | none => (-1, m)
  | some t =>
      (t, { m with
              pending := removeAll m.pending t
              inProgress := insertUnique m.inProgress t })

/-- Modelled from the spec: `markComplete` moves an index out of pending and
in-progress into complete. -/
def TaskStatusManager.markComplete (m : TaskStatusManager) (t : Int) : TaskStatusManager :=
  { m with
      pending := removeAll m.pending t
      inProgress := removeAll m.inProgress t
      complete := insertUnique m.complete t }

/-- Modelled from the spec: `addDependencies` records that `blocked` cannot
run until `blocker` completes (it is taken out of the runnable pending set);
no-op returning false when the blocker is already complete. -/
def TaskStatusManager.addDependencies (m : TaskStatusManager) (blocker blocked : Int) :
    Bool × TaskStatusManager :=
  if blocker ∈ m.complete then (false, m)
  else
    (true,
     { m with
         blockers := if (blocker, blocked) ∈ m.blockers then m.blockers
                     else m.blockers ++ [(blocker, blocked)]
         pending := removeAll m.pending blocked })

/-- Modelled from the spec: `removeDependency` drops every dependency whose
blocker is the given index and releases any transaction solely blocked on it
back to pending. -/
def TaskStatusManager.removeDependency (m : TaskStatusManager) (i : Int) : TaskStatusManager :=
  let affected := (m.blockers.filter (fun p => p.1 = i)).map (fun p => p.2)
  let rest := m.blockers.filter (fun p => p.1 ≠ i)
  let released := affected.filter (fun t => ¬ rest.any (fun p => p.2 = t))
  { m with
      blockers := rest
      pending := released.foldl insertUnique m.pending }

/-- Walk upward from `cur` while the next index is complete (fuel-bounded;
the chain cannot be longer than the complete list). -/
def maxChain (complete : List Int) : Nat → Int → Int
  | 0, cur => cur
  | fuel + 1, cur => if (cur + 1) ∈ complete then maxChain complete fuel (cur + 1) else cur

/-- Modelled from the spec: `maxAllComplete` is the largest index M such that
every index up to and including M is complete, `-1` when 0 is not complete. -/
def TaskStatusManager.maxAllComplete (m : TaskStatusManager) : Int :=
  maxChain m.complete m.complete.length (-1)

/-- Modelled from the spec: `getRevalidationRange` lists all currently
complete indices at or above `from`. -/
def TaskStatusManager.getRevalidationRange (m : TaskStatusManager) (frm : Int) : List Int :=
  m.complete.filter (fun x => frm ≤ x)

def TaskStatusManager.countComplete (m : TaskStatusManager) : Nat :=
  m.complete.length

/-- `HasReadDep`: whether some write of `txFrom` hits a key read by `txTo`
(the source builds the set of read paths, then scans the writes). -/
def HasReadDep (txFrom : TxnOutput) (txTo : TxnInput) : Bool :=
  let reads := txTo.map (fun v => v.Path)
  txFrom.any (fun rd => rd.Path ∈ reads)

/-- The dependency list `GetDep` builds for one transaction: lower indices
scanned in descending order, kept when their all-write-set hits the
transaction's read-set. -/
def getDepList (io : TxnInputOutput) (i : Nat) : List Nat :=
  ((List.range i).reverse).filter
    (fun j => HasReadDep (io.allOutputs.getD j []) (io.inputs.getD i []))

/-- `GetDep`: the dependency map over the final input/output sets, one entry
per transaction with a nonempty dependency list (Go maps only hold appended
keys), transactions scanned in descending order from the top. -/
def GetDep (io : TxnInputOutput) : List (Nat × List Nat) :=
  (((List.range io.inputs.length).reverse).filter
      (fun i => decide (0 < i) && decide (getDepList io i ≠ []))).map
    (fun i => (i, getDepList io i))

/-- The edge set `BuildDAG` produces: for every transaction index `i` above
zero and every lower `j`, an edge `j → i` exactly when `HasReadDep` holds of
`j`'s all-write-set and `i`'s read-set. -/
def BuildDAGEdges (io : TxnInputOutput) : List (Nat × Nat) :=
  ((((List.range io.inputs.length).reverse).filter (fun i => 0 < i)).map
      (fun i => (getDepList io i).map (fun j => (j, i)))).flatten

/-- A worker result error: either the recoverable dependency-conflict
`ErrExecAbortError` (with its possibly `-1` dependency index) or any other
execution error, abstracted by a numeric code. -/
inductive ExecError where
  | execAbort (dependency : Int)
  | fatal (code : Nat)
deriving DecidableEq, Repr

/-- `ExecResult`: what a worker reports for one execution attempt. -/
structure ExecResult where
  err : Option ExecError
  ver : Version
  txIn : TxnInput
  txOut : TxnOutput
  txAllOut : TxnOutput
deriving DecidableEq, Repr

/-- `ParallelExecutionResult`: Go nil-able pointers and maps are `Option`. -/
structure ParallelExecutionResult where
  TxIo : Option TxnInputOutput
  Stats : Option (List (List Nat))
  AllDeps : Option (List (Nat × List Nat))
deriving DecidableEq, Repr

/-- The Go zero value `ParallelExecutionResult{}`: all components nil. -/
def emptyPER : ParallelExecutionResult :=
  { TxIo := none, Stats := none, AllDeps := none }

/-- The scheduler-owned mutable state of the `ParallelExecutor` (channels and
wait groups are represented by the lists of indices sent on them). -/
structure PEState where
  numTasks : Nat
  profile : Bool
  execTasks : TaskStatusManager
  validateTasks : TaskStatusManager
  mvh : MVHashMap
  lastTxIo : TxnInputOutput
  txIncarnations : Int → Int
  estimateDeps : Int → List Int
  skipCheck : Int → Bool
  preValidated : Int → Bool
  lastSettled : Int
  settleQueue : List Int
  stats : List (List Nat)
  cntExec : Int
  cntSuccess : Int
  cntAbort : Int
  cntTotalValidations : Int
  cntValidationFail : Int
  diagExecSuccess : Int → Int
  diagExecAbort : Int → Int
  specQueue : List Int
  chTasksSent : List Int

/-- The executor state as built by `NewParallelExecutor` (worker launching and
the dependency seeding of `Prepare` happen outside the step loop and are not
needed by the properties below). -/
def initialState (numTasks : Nat) (profile : Bool) : PEState :=
  { numTasks := numTasks
    profile := profile
    execTasks := makeStatusManager numTasks
    validateTasks := makeStatusManager 0
    mvh := []
    lastTxIo := MakeTxnInputOutput numTasks
    txIncarnations := fun _ => 0
    estimateDeps := fun _ => []
    skipCheck := fun _ => false
    preValidated := fun _ => false
    lastSettled := -1
    settleQueue := []
    stats := []
    cntExec := 0
    cntSuccess := 0
    cntAbort := 0
    cntTotalValidations := 0
    cntValidationFail := 0
    diagExecSuccess := fun _ => 0
    diagExecAbort := fun _ => 0
    specQueue := []
    chTasksSent := [] }

/-- The abort branch's estimate cleanup: pop recorded estimates from the end
of the list while they exceed the reported dependency.  Returns the popped
estimates (in pop order) and the remaining list.  Fuel is the list length. -/
def popEstimatesAbove (fuel : Nat) (l : List Int) (d : Int) : List Int × List Int :=
  match fuel with
  | 0 => ([], l)
  | fuel + 1 =>
      match l.getLast? with
      | none => ([], l)
      | some x =>
          if d < x then
            let p := popEstimatesAbove fuel l.dropLast d
            (x :: p.1, p.2)
          else ([], l)

/-- The common tail of abort handling: clear in-progress, re-queue as pending
exactly when no dependency was recorded, bump the incarnation and the abort
counters. -/
def abortCommon (added : Bool) (s1 : PEState) (tx : Int) : PEState :=
  let e2 := s1.execTasks.clearInProgress tx
  let e3 := if added then e2 else e2.pushPending tx
  { s1 with
      execTasks := e3
      txIncarnations := fun t => if t = tx then s1.txIncarnations tx + 1 else s1.txIncarnations t
      diagExecAbort := fun t => if t = tx then s1.diagExecAbort tx + 1 else s1.diagExecAbort t
      cntAbort := s1.cntAbort + 1 }

/-- Abort handling when the result reports an explicit conflicting index:
pop recorded estimates above it (releasing each popped estimate's
dependencies), then depend on the reported index. -/
def abortKnownDep (s : PEState) (tx dep : Int) : PEState :=
  let p := popEstimatesAbove (s.estimateDeps tx).length (s.estimateDeps tx) dep
  let e1 := p.1.foldl TaskStatusManager.removeDependency s.execTasks
  let r := e1.addDependencies dep tx
  abortCommon r.1
    { s with
        execTasks := r.2
        estimateDeps := fun t => if t = tx then p.2 else s.estimateDeps t } tx

/-- Abort handling when no conflicting index is known: depend on the last
recorded estimate (or 0) and record a freshly synthesized estimate. -/
def abortNoDep (s : PEState) (tx : Int) : PEState :=
  let estimate := lastEstimate (s.estimateDeps tx)
  let r := s.execTasks.addDependencies estimate tx
  abortCommon r.1
    { s with
        execTasks := r.2
        estimateDeps := fun t =>
          if t = tx then s.estimateDeps tx ++ [synthEstimate estimate tx]
          else s.estimateDeps t } tx

/-- The abort-handling branch of `Step` (result carried `ErrExecAbortError`):
discard estimates above a known dependency, or record a synthesized estimate
and depend on the last one; then the common tail. -/
def abortHandling (s : PEState) (tx dep : Int) : PEState :=
  if 0 ≤ dep then abortKnownDep s tx dep else abortNoDep s tx

/-- The success branch of `Step`: record the read-set; for a re-incarnation,
push the revalidation range when the all-write-set has a new key and delete
store entries for keys no longer written; record the new write-sets; push the
transaction for validation, mark it execution-complete, release dependents. -/
def successHandling (s : PEState) (tx inc : Int) (txIn : TxnInput)
    (txOut txAllOut : TxnOutput) : PEState :=
  let io1 := s.lastTxIo.recordRead tx txIn
  let s1 :=
    if inc = 0 then
      { s with lastTxIo := (io1.recordWrite tx txOut).recordAllWrite tx txAllOut }
    else
      let prevWrite := io1.AllWriteSet tx
      let val1 :=
        if hasNewWrite txAllOut prevWrite then
          s.validateTasks.pushPendingSet (s.execTasks.getRevalidationRange (tx + 1))
        else s.validateTasks
      let mvh1 :=
        prevWrite.foldl
          (fun m v => if txAllOut.any (fun w => w.Path = v.Path) then m else MVDelete m v.Path tx)
          s.mvh
      { s with
          validateTasks := val1
          mvh := mvh1
          lastTxIo := (io1.recordWrite tx txOut).recordAllWrite tx txAllOut }
  { s1 with
      validateTasks := s1.validateTasks.pushPending tx
      execTasks := (s1.execTasks.markComplete tx).removeDependency tx
      diagExecSuccess := fun t => if t = tx then s1.diagExecSuccess tx + 1 else s1.diagExecSuccess t
      cntSuccess := s1.cntSuccess + 1 }

/-- The validation collection loop of `Step`: take pending validation indices
while the smallest one is within the execution-complete frontier.  Fuel is
the pending list length plus one. -/
def collectToValidate (fuel : Nat) (m : TaskStatusManager) (maxComplete : Int) :
    List Int × TaskStatusManager :=
  match fuel with
  | 0 => ([], m)
  | fuel + 1 =>
      if m.minPending ≤ maxComplete ∧ 0 ≤ m.minPending then
        let p := m.takeNextPending
        let r := collectToValidate fuel p.2 maxComplete
        (p.1 :: r.1, r.2)
      else ([], m)

/-- The failed-validation branch of the validation loop: mark every recorded
write of the failed transaction as an ESTIMATE, reopen the revalidation range
above it, reset it to pending execution with a bumped incarnation. -/
def validateFailBranch (s0 : PEState) (tx : Int) : PEState :=
  let mvh1 :=
    (s0.lastTxIo.AllWriteSet tx).foldl (fun m v => MVMarkEstimate m v.Path tx) s0.mvh
  let val1 := s0.validateTasks.pushPendingSet (s0.execTasks.getRevalidationRange (tx + 1))
  let val2 := val1.clearInProgress tx
  let exec1 := (s0.execTasks.clearComplete tx).pushPending tx
  { s0 with
      cntValidationFail := s0.cntValidationFail + 1
      diagExecAbort := fun t => if t = tx then s0.diagExecAbort tx + 1 else s0.diagExecAbort t
      mvh := mvh1
      validateTasks := val2
      execTasks := exec1
      preValidated := fun t => if t = tx then false else s0.preValidated t
      txIncarnations := fun t => if t = tx then s0.txIncarnations tx + 1 else s0.txIncarnations t }

/-- Validation of one collected index: mark validation complete on success
(or when flagged sure-valid); on failure run the failed-validation branch. -/
def validateOne (s : PEState) (tx : Int) : PEState :=
  let s0 := { s with cntTotalValidations := s.cntTotalValidations + 1 }
  if s0.skipCheck tx || ValidateVersion tx s0.lastTxIo s0.mvh then
    { s0 with validateTasks := s0.validateTasks.markComplete tx }
  else validateFailBranch s0 tx

/-- The settle dispatch loop of `Step` over abstract status predicates: walk
the frontier upward from `lastSettled` while below `maxValidated`, stopping
at the first index still pending, in progress or blocked for execution;
every index walked over is dispatched.  Fuel bounds the walk. -/
def settleChunk (fuel : Nat) (inProg pend blocked : Int → Bool)
    (maxValidated lastSettled : Int) : Int × List Int :=
  match fuel with
  | 0 => (lastSettled, [])
  | fuel + 1 =>
      if lastSettled < maxValidated then
        let c := lastSettled + 1
        if inProg c || pend c || blocked c then (lastSettled, [])
        else
          let r := settleChunk fuel inProg pend blocked maxValidated c
          (r.1, c :: r.2)
      else (lastSettled, [])

/-- The speculative dispatch loop at the end of `Step`: drain the pending set
into the speculative task queue.  (The Go loop keeps spinning when both the
pending and in-progress sets are empty; that degenerate case never produces
further work and is cut off by the fuel.) -/
def specDispatch (fuel : Nat) (s : PEState) : PEState :=
  match fuel with
  | 0 => s
  | fuel + 1 =>
      if s.execTasks.minPending ≠ -1 then
        let p := s.execTasks.takeNextPending
        if p.1 ≠ -1 then
          specDispatch fuel
            { s with
                execTasks := p.2
                cntExec := s.cntExec + 1
                specQueue := s.specQueue ++ [p.1] }
        else { s with execTasks := p.2 }
      else s

/-- Everything `Step` does after the per-result branch: run validations up to
the execution-complete frontier, dispatch newly-validated unblocked indices
for settlement, return the final result when all tasks are execution- and
validation-complete, otherwise hand out new work. -/
def stepTail (s : PEState) : PEState × ParallelExecutionResult × Option ExecError :=
  let maxComplete := s.execTasks.maxAllComplete
  let col := collectToValidate (s.validateTasks.pending.length + 1) s.validateTasks maxComplete
  let s1 := { s with validateTasks := col.2 }
  let s2 := col.1.foldl validateOne s1
  let maxValidated := s2.validateTasks.maxAllComplete
  let chunk := settleChunk (maxValidated - s2.lastSettled).toNat
      s2.execTasks.checkInProgress s2.execTasks.checkPending s2.execTasks.isBlocked
      maxValidated s2.lastSettled
  let s3 := { s2 with lastSettled := chunk.1, settleQueue := s2.settleQueue ++ chunk.2 }
  if s3.validateTasks.countComplete = s3.numTasks ∧ s3.execTasks.countComplete = s3.numTasks then
    (s3,
     { TxIo := some s3.lastTxIo
       Stats := some s3.stats
       AllDeps := if s3.profile then some (GetDep s3.lastTxIo) else none },
     none)
  else
    let s4 :=
      if s3.execTasks.minPending ≠ -1 ∧ s3.execTasks.minPending = maxValidated + 1 then
        let p := s3.execTasks.takeNextPending
        if p.1 ≠ -1 then
          { s3 with
              execTasks := p.2
              cntExec := s3.cntExec + 1
              skipCheck := fun t => if t = p.1 then true else s3.skipCheck t
              chTasksSent := s3.chTasksSent ++ [p.1] }
        else { s3 with execTasks := p.2 }
      else s3
    let s5 := specDispatch (s4.execTasks.pending.length + 1) s4
    (s5, emptyPER, none)

/-- One run of the scheduler's `Step` on a consumed result: a fatal error is
returned before any mutation; an `ErrExecAbortError` drives abort handling; a
clean result drives success handling; then validation, settlement and
dispatch. -/
def stepExec (s : PEState) (res : ExecResult) : PEState × ParallelExecutionResult × Option ExecError :=
  let tx := res.ver.TxnIndex
  match res.err with
  | some (ExecError.fatal c) => (s, emptyPER, some (ExecError.fatal c))
  | some (ExecError.execAbort d) => stepTail (abortHandling s tx d)
  | none => stepTail (successHandling s tx res.ver.Incarnation res.txIn res.txOut res.txAllOut)

/-- The result-consumption loop of `executeParallelWithCheck` (with the
trivial `check` used by `ExecuteParallel`): feed results to `Step`, returning
as soon as `Step` reports an error or a final result. -/
def runResults (s : PEState) : List ExecResult → ParallelExecutionResult × Option ExecError
  | [] => (emptyPER, none)
  | r :: rs =>
      let o := stepExec s r
      match o.2.2 with
      | some e => (o.2.1, some e)
      | none => if o.2.1.TxIo.isSome then (o.2.1, none) else runResults o.1 rs

/-- `executeParallelWithCheck` for the blockstm engine: an empty task list
returns immediately with a fresh empty input/output structure, nil stats and
nil dependency map; otherwise the step loop runs over the incoming results. -/
def executeParallelWithCheck (numTasks : Nat) (profile : Bool)
    (results : List ExecResult) : ParallelExecutionResult × Option ExecError :=
  if numTasks = 0 then
    ({ TxIo := some (MakeTxnInputOutput numTasks), Stats := none, AllDeps := none }, none)
  else runResults (initialState numTasks profile) results

/-- A result carrying a fatal (non-dependency-conflict) error. -/
def fatalResult : ExecResult :=
  { err := some (ExecError.fatal 0)
    ver := { TxnIndex := 0, Incarnation := 0 }
    txIn := []
    txOut := []
    txAllOut := [] }

/-- One observation of the executor's status predicates together with the
validation frontier, as the settle loop of one `Step` run sees them. -/
structure SettleQuery where
  inProg : Int → Bool
  pend : Int → Bool
  blocked : Int → Bool
  maxValidated : Int

/-- The settle loop of one `Step` run: fuel as computed at the call site. -/
def settleQueryChunk (q : SettleQuery) (lastSettled : Int) : Int × List Int :=
  settleChunk (q.maxValidated - lastSettled).toNat q.inProg q.pend q.blocked
    q.maxValidated lastSettled

/-- The settle loops of successive `Step` runs, threading `lastSettled`
(initially `-1`) and recording each run's dispatched indices. -/
def runSettleChunks (qs : List SettleQuery) (lastSettled : Int) : Int × List (List Int) :=
  match qs with
  | [] => (lastSettled, [])
  | q :: rest =>
      let c := settleQueryChunk q lastSettled
      let r := runSettleChunks rest c.1
      (r.1, c.2 :: r.2)

/-- The consecutive integers `a, a+1, ..., a+n-1`. -/
def intsFrom (a : Int) (n : Nat) : List Int :=
  List.map (fun k : Nat => a + (k : Int)) (List.range n)

/-- A final input/output structure where transaction 0's all-write-set holds
key 0 although its final write-set is empty (key 0 was written by an earlier
incarnation only), and transaction 1 reads key 0. -/
def dagIo : TxnInputOutput :=
  { inputs := [[], [{ Path := 0, Origin := ReadOrigin.fromBase }]]
    outputs := [[], []]
    allOutputs := [[{ Path := 0, V := { TxnIndex := 0, Incarnation := 0 } }], []] }

/-- A mid-block state: transaction 1 is re-executing at incarnation 1 (its
incarnation 0 wrote key 0), transactions 0 and 2 are execution-complete and
validation-complete, and transaction 0 has already been settled. -/
def dropKeyState : PEState :=
  { numTasks := 3
    profile := false
    execTasks := { pending := [], inProgress := [1], complete := [0, 2], blockers := [] }
    validateTasks := { pending := [], inProgress := [], complete := [0, 2], blockers := [] }
    mvh := [{ path := 0, txIdx := 1, cell := MVCell.written 0 }]
    lastTxIo :=
      { inputs := [[], [], []]
        outputs := [[], [{ Path := 0, V := { TxnIndex := 1, Incarnation := 0 } }], []]
        allOutputs := [[], [{ Path := 0, V := { TxnIndex := 1, Incarnation := 0 } }], []] }
    txIncarnations := fun t => if t = 1 then 1 else 0
    estimateDeps := fun _ => []
    skipCheck := fun _ => false
    preValidated := fun _ => false
    lastSettled := 0
    settleQueue := [0]
    stats := []
    cntExec := 0
    cntSuccess := 0
    cntAbort := 0
    cntTotalValidations := 0
    cntValidationFail := 0
    diagExecSuccess := fun _ => 0
    diagExecAbort := fun _ => 0
    specQueue := []
    chTasksSent := [] }

/-- The incarnation-1 result of transaction 1 in `dropKeyState`: it no longer
writes key 0 (the key is dropped) and writes nothing new. -/
def dropKeyResult : ExecResult :=
  { err := none
    ver := { TxnIndex := 1, Incarnation := 1 }
    txIn := []
    txOut := []
    txAllOut := [] }

/-- A state in which validation of transaction 1 fails: its recorded read of
key 0 claims version (0,0) but the store has no writer of key 0 below
index 1; transaction 1 itself wrote key 0, and transaction 2 is
execution-complete. -/
def failValState : PEState :=
  { dropKeyState with
      execTasks := { pending := [], inProgress := [], complete := [0, 1, 2], blockers := [] }
      validateTasks := { pending := [], inProgress := [1], complete := [0], blockers := [] }
      lastTxIo :=
        { inputs :=
            [[],
             [{ Path := 0, Origin := ReadOrigin.fromMap { TxnIndex := 0, Incarnation := 0 } }],
             []]
          outputs := [[], [{ Path := 0, V := { TxnIndex := 1, Incarnation := 0 } }], []]
          allOutputs := [[], [{ Path := 0, V := { TxnIndex := 1, Incarnation := 0 } }], []] } }

/-- Go `h.Swap(i, j)` on the `IntHeap` slice. -/
def goSwap (l : List Int) (i j : Nat) : List Int :=
  (l.set i (l.getD j 0)).set j (l.getD i 0)

/-- The `up` sift of Go's `container/heap`: while the element at `j` is
`Less` than its parent `(j-1)/2`, swap them and continue from the parent.
The fuel (one more than the starting position suffices) bounds the walk. -/
def siftUp (fuel : Nat) (l : List Int) (j : Nat) : List Int :=
  match fuel with
  | 0 => l
  | fuel + 1 =>
      if j = 0 then l
      else
        let i := (j - 1) / 2
        if l.getD j 0 < l.getD i 0 then siftUp fuel (goSwap l i j) i else l

/-- `heap.Push` for `IntHeap`: append the value, then sift it up. -/
def heapPush (l : List Int) (v : Int) : List Int :=
  siftUp (l.length + 1) (l ++ [v]) l.length

/-- The `down` sift of Go's `container/heap` within the first `n` positions:
swap the element at `i` with its smaller child while that child is `Less`. -/
def siftDown (fuel : Nat) (l : List Int) (i n : Nat) : List Int :=
  match fuel with
  | 0 => l
  | fuel + 1 =>
      if 2 * i + 1 < n then
        let j :=
          if 2 * i + 2 < n ∧ l.getD (2 * i + 2) 0 < l.getD (2 * i + 1) 0 then 2 * i + 2
          else 2 * i + 1
        if l.getD j 0 < l.getD i 0 then siftDown fuel (goSwap l i j) j n else l
      else l

/-- `heap.Pop` for `IntHeap`: swap the root with the last element, sift the
new root down over the shortened prefix, then pop the tail; the returned
value is the old root (the minimum). -/
def heapPop (l : List Int) : Int × List Int :=
  let n := l.length - 1
  let l1 := goSwap l 0 n
  let l2 := siftDown n l1 0 n
  (l2.getD n 0, l2.take n)

/-- The thread-safe priority queue: the `IntHeap` of priorities plus the
`data` map from priority to the stored datum (a Go map, nil-able lookup). -/
structure SafePriorityQueue (α : Type) where
  queue : List Int
  data : Int → Option α

/-- `NewSafePriorityQueue`: empty heap, empty map. -/
def NewSafePriorityQueue (α : Type) : SafePriorityQueue α :=
  { queue := [], data := fun _ => none }

/-- `Push(v, d)`: push the priority onto the heap and store the datum. -/
def SafePriorityQueue.Push {α : Type} (pq : SafePriorityQueue α) (v : Int) (d : α) :
    SafePriorityQueue α :=
  { queue := heapPush pq.queue v
    data := fun k => if k = v then some d else pq.data k }

/-- `Pop()`: pop the minimum priority from the heap and look its datum up. -/
def SafePriorityQueue.Pop {α : Type} (pq : SafePriorityQueue α) :
    Option α × SafePriorityQueue α :=
  let p := heapPop pq.queue
  (pq.data p.1, { pq with queue := p.2 })

/-- `Len()`: the heap length. -/
def SafePriorityQueue.Len {α : Type} (pq : SafePriorityQueue α) : Nat :=
  pq.queue.length

/-- A sequence of `Push` calls, one per pair. -/
def foldPush {α : Type} (ps : List (Int × α)) (q : SafePriorityQueue α) :
    SafePriorityQueue α :=
  ps.foldl (fun a p => a.Push p.1 p.2) q

/-- The root of the heap is at most every element. -/
def RootMin (l : List Int) : Prop :=
  ∀ k, k < l.length → l.getD 0 0 ≤ l.getD k 0

/-- The root is at most every element except possibly the one at `j`. -/
def RootMinExcept (l : List Int) (j : Nat) : Prop :=
  ∀ k, k < l.length → k ≠ j → l.getD 0 0 ≤ l.getD k 0

/-! ## Estimate arithmetic (claim C6) -/

theorem tdiv_two_nonneg {a : Int} (h : -1 ≤ a) : 0 ≤ Int.tdiv a 2 := by
  rcases (by omega : a = -1 ∨ 0 ≤ a) with h1 | h1
  · subst h1; decide
  · exact Int.tdiv_nonneg h1 (by norm_num)

theorem synthEstimate_bounds (e tx : Int) (htx : 0 ≤ tx) (he : -1 ≤ e) :
    synthEstimate e tx < tx ∧ -1 ≤ synthEstimate e tx ∧ (e < tx → e ≤ synthEstimate e tx) := by
  have hd : 0 ≤ Int.tdiv (e + tx) 2 := tdiv_two_nonneg (by omega)
  simp only [synthEstimate]
  split <;> omega

theorem recordAbortEstimate_inv (tx : Int) (htx : 0 ≤ tx) (l : List Int)
    (hc : l.Chain' (· ≤ ·)) (hb : ∀ x ∈ l, -1 ≤ x ∧ x < tx) :
    (recordAbortEstimate tx l).Chain' (· ≤ ·) ∧
      ∀ x ∈ recordAbortEstimate tx l, -1 ≤ x ∧ x < tx := by
  have hlast : -1 ≤ lastEstimate l ∧ (l ≠ [] → lastEstimate l < tx) := by
    cases hgl : l.getLast? with
    | none =>
        have hl : l = [] := List.getLast?_eq_none_iff.mp hgl
        subst hl
        exact ⟨by simp [lastEstimate], by simp⟩
    | some a =>
        have ha := hb a (List.mem_of_mem_getLast? hgl)
        have hl : lastEstimate l = a := by simp [lastEstimate, hgl]
        rw [hl]
        exact ⟨ha.1, fun _ => ha.2⟩
  have hs := synthEstimate_bounds (lastEstimate l) tx htx hlast.1
  constructor
  · unfold recordAbortEstimate
    rw [List.chain'_append]
    refine ⟨hc, List.chain'_singleton _, ?_⟩
    intro x hx y hy
    simp only [List.head?_cons, Option.mem_def, Option.some.injEq] at hy
    subst hy
    have hne : l ≠ [] := by
      intro h0; rw [h0] at hx; simp at hx
    have hx' : x = lastEstimate l := by
      unfold lastEstimate
      rw [Option.mem_def] at hx
      rw [hx]
      rfl
    subst hx'
    exact hs.2.2 (hlast.2 hne)
  · intro x hx
    unfold recordAbortEstimate at hx
    rcases List.mem_append.mp hx with h1 | h1
    · exact hb x h1
    · simp only [List.mem_singleton] at h1
      subst h1
      exact ⟨hs.2.1, hs.1⟩

theorem recordAbortEstimate_iterate_inv (tx : Int) (htx : 0 ≤ tx) (n : Nat) :
    ((recordAbortEstimate tx)^[n] []).Chain' (· ≤ ·) ∧
      ∀ x ∈ (recordAbortEstimate tx)^[n] [], -1 ≤ x ∧ x < tx := by
  induction n with
  | zero => simp
  | succ n ih =>
      rw [Function.iterate_succ_apply']
      exact recordAbortEstimate_inv tx htx _ ih.1 ih.2

/-- Claim C6: every synthesized abort-target estimate for transaction `tx`
(from a previously recorded estimate `0 ≤ e < tx`, or from the default `0`
when none is recorded) is strictly below `tx`, and the estimates recorded for
`tx` across repeated aborts form a non-decreasing sequence, each strictly
below `tx`. -/
theorem estimate_monotonicity (tx : Int) (htx : 0 ≤ tx) :
    (∀ e : Int, (0 ≤ e ∧ e < tx) ∨ e = 0 → synthEstimate e tx < tx) ∧
    ∀ n : Nat, ((recordAbortEstimate tx)^[n] []).Chain' (· ≤ ·) ∧
      ∀ x ∈ (recordAbortEstimate tx)^[n] [], x < tx := by
  constructor
  · intro e he
    exact (synthEstimate_bounds e tx htx (by omega)).1
  · intro n
    have h := recordAbortEstimate_iterate_inv tx htx n
    exact ⟨h.1, fun x hx => (h.2 x hx).2⟩

/-- Witness for C6 at `tx = 3`. -/
theorem estimate_monotonicity_witness :
    (0 : Int) ≤ 3 ∧
      ((∀ e : Int, (0 ≤ e ∧ e < 3) ∨ e = 0 → synthEstimate e 3 < 3) ∧
      ∀ n : Nat, ((recordAbortEstimate 3)^[n] []).Chain' (· ≤ ·) ∧
        ∀ x ∈ (recordAbortEstimate 3)^[n] [], x < 3) :=
  ⟨by decide, estimate_monotonicity 3 (by decide)⟩

/-! ## Fatal errors (claims C9 and C2) -/

/-- Claim C9: on a result whose error is not an `ErrExecAbortError`, `Step`
returns that error with the Go zero-value result and performs no mutation:
the executor state is returned exactly as it was. -/
theorem step_fatal_no_mutation (s : PEState) (res : ExecResult) (c : Nat)
    (h : res.err = some (ExecError.fatal c)) :
    stepExec s res = (s, emptyPER, some (ExecError.fatal c)) := by
  simp [stepExec, h]

/-- Witness for C9 at a concrete state and fatal result. -/
theorem step_fatal_no_mutation_witness :
    fatalResult.err = some (ExecError.fatal 0) ∧
      stepExec (initialState 1 false) fatalResult =
        (initialState 1 false, emptyPER, some (ExecError.fatal 0)) :=
  ⟨rfl, step_fatal_no_mutation (initialState 1 false) fatalResult 0 rfl⟩

/-- Claim C2: when the run consumes a result carrying a fatal error, it halts
at once (the remaining results are never consumed) and returns exactly that
error, with the zero-value result whose input/output component is nil. -/
theorem run_halts_on_fatal (s : PEState) (r : ExecResult) (rs : List ExecResult) (c : Nat)
    (h : r.err = some (ExecError.fatal c)) :
    runResults s (r :: rs) = (emptyPER, some (ExecError.fatal c)) ∧ emptyPER.TxIo = none := by
  refine ⟨?_, rfl⟩
  simp [runResults, stepExec, h]

/-- Witness for C2 at a concrete state and fatal result. -/
theorem run_halts_on_fatal_witness :
    fatalResult.err = some (ExecError.fatal 0) ∧
      runResults (initialState 1 false) [fatalResult] =
        (emptyPER, some (ExecError.fatal 0)) ∧ emptyPER.TxIo = none :=
  ⟨rfl, run_halts_on_fatal (initialState 1 false) fatalResult [] 0 rfl⟩

/-! ## Empty task list (claim C8) -/

/-- Counterexample to claim C8 as stated: with an empty task list, the
per-task stats pointer and the dependency map of the returned result are nil
(`none`), not empty non-null structures. -/
theorem empty_tasks_nil_components :
    (executeParallelWithCheck 0 false []).1.Stats = none ∧
      (executeParallelWithCheck 0 false []).1.AllDeps = none :=
  ⟨rfl, rfl⟩

/-- Claim C8 amended: an empty task list returns immediately with no error;
the final input/output component is a non-null empty structure, while the
per-task stats pointer and the dependency map are nil. -/
theorem empty_tasks_result (profile : Bool) (results : List ExecResult) :
    executeParallelWithCheck 0 profile results =
      ({ TxIo := some (MakeTxnInputOutput 0), Stats := none, AllDeps := none }, none) ∧
      (MakeTxnInputOutput 0).inputs = [] ∧
      (MakeTxnInputOutput 0).outputs = [] ∧
      (MakeTxnInputOutput 0).allOutputs = [] :=
  ⟨rfl, rfl, rfl, rfl⟩

/-! ## Settle dispatch (claim C1) -/

theorem intsFrom_succ (a : Int) (n : Nat) : intsFrom a (n + 1) = a :: intsFrom (a + 1) n := by
  simp only [intsFrom, List.range_succ_eq_map, List.map_cons, List.map_map]
  refine congrArg₂ _ (by simp) ?_
  apply List.map_congr_left
  intro k _
  simp only [Function.comp_apply, Nat.succ_eq_add_one]
  push_cast
  ring

theorem intsFrom_append (a : Int) (m n : Nat) :
    intsFrom a (m + n) = intsFrom a m ++ intsFrom (a + m) n := by
  simp only [intsFrom, List.range_add, List.map_append, List.map_map]
  refine congrArg₂ _ rfl ?_
  apply List.map_congr_left
  intro k _
  simp only [Function.comp_apply]
  push_cast
  ring

theorem intsFrom_pairwise (a : Int) (n : Nat) : (intsFrom a n).Pairwise (· < ·) := by
  unfold intsFrom
  refine List.Pairwise.map _ ?_ (List.pairwise_lt_range n)
  intro x y hxy
  omega

theorem settleChunk_spec (fuel : Nat) (inP pend blk : Int → Bool) (mv ls : Int) :
    ∃ k : Nat,
      (settleChunk fuel inP pend blk mv ls).1 = ls + k ∧
      (settleChunk fuel inP pend blk mv ls).2 = intsFrom (ls + 1) k ∧
      ∀ i ∈ (settleChunk fuel inP pend blk mv ls).2,
        i ≤ mv ∧ inP i = false ∧ pend i = false ∧ blk i = false := by
  induction fuel generalizing ls with
  | zero =>
      refine ⟨0, by simp [settleChunk], by simp [settleChunk, intsFrom], ?_⟩
      simp [settleChunk]
  | succ fuel ih =>
      by_cases h1 : ls < mv
      · by_cases h2 : (inP (ls + 1) || pend (ls + 1) || blk (ls + 1)) = true
        · refine ⟨0, ?_, ?_, ?_⟩ <;> simp [settleChunk, h1, h2, intsFrom]
        · obtain ⟨k, hk1, hk2, hk3⟩ := ih (ls + 1)
          have hred : settleChunk (fuel + 1) inP pend blk mv ls =
              ((settleChunk fuel inP pend blk mv (ls + 1)).1,
               (ls + 1) :: (settleChunk fuel inP pend blk mv (ls + 1)).2) := by
            simp only [settleChunk]
            rw [if_pos h1, if_neg h2]
          have hb : inP (ls + 1) = false ∧ pend (ls + 1) = false ∧ blk (ls + 1) = false := by
            simpa [not_or, and_assoc] using h2
          refine ⟨k + 1, ?_, ?_, ?_⟩
          · rw [hred]
            show (settleChunk fuel inP pend blk mv (ls + 1)).1 = ls + ((k : Int) + 1)
            rw [hk1]; ring
          · rw [hred]
            show (ls + 1) :: (settleChunk fuel inP pend blk mv (ls + 1)).2 =
              intsFrom (ls + 1) (k + 1)
            rw [intsFrom_succ, hk2]
          · intro i hi
            rw [hred] at hi
            rcases List.mem_cons.mp hi with h3 | h3
            · subst h3
              exact ⟨by omega, hb.1, hb.2.1, hb.2.2⟩
            · exact hk3 i h3
      · refine ⟨0, ?_, ?_, ?_⟩ <;> simp [settleChunk, h1, intsFrom]

theorem runSettleChunks_spec (qs : List SettleQuery) (ls : Int) :
    ∃ n : Nat,
      (runSettleChunks qs ls).1 = ls + n ∧
      (runSettleChunks qs ls).2.flatten = intsFrom (ls + 1) n ∧
      ∀ p ∈ qs.zip (runSettleChunks qs ls).2, ∀ i ∈ p.2,
        i ≤ p.1.maxValidated ∧ p.1.inProg i = false ∧ p.1.pend i = false ∧
          p.1.blocked i = false := by
  induction qs generalizing ls with
  | nil =>
      refine ⟨0, by simp [runSettleChunks], by simp [runSettleChunks, intsFrom], ?_⟩
      simp [runSettleChunks]
  | cons q rest ih =>
      obtain ⟨k, hk1, hk2, hk3⟩ := settleChunk_spec ((q.maxValidated - ls).toNat)
        q.inProg q.pend q.blocked q.maxValidated ls
      obtain ⟨n, hn1, hn2, hn3⟩ := ih (ls + k)
      refine ⟨k + n, ?_, ?_, ?_⟩
      · simp only [runSettleChunks, settleQueryChunk, hk1, hn1]
        omega
      · simp only [runSettleChunks, settleQueryChunk, hk1, List.flatten_cons, hn2, hk2]
        rw [intsFrom_append]
        refine congrArg₂ _ rfl ?_
        refine congrArg₂ _ ?_ rfl
        omega
      · intro p hp i hi
        simp only [runSettleChunks, settleQueryChunk, hk1, List.zip_cons_cons] at hp
        rcases List.mem_cons.mp hp with h3 | h3
        · subst h3
          exact hk3 i hi
        · exact hn3 p h3 i hi

/-- Claim C1: across every run of the scheduler, the indices dispatched for
settlement are exactly `0, 1, ..., lastSettled`, in strictly ascending order
with no repeats; and every index dispatched during some run is at most that
run's validation frontier and is neither in-progress, pending, nor blocked
for execution at dispatch time. -/
theorem settle_dispatch_ordered (qs : List SettleQuery) :
    (runSettleChunks qs (-1)).2.flatten =
        intsFrom 0 ((runSettleChunks qs (-1)).1 + 1).toNat ∧
    List.Pairwise (· < ·) (runSettleChunks qs (-1)).2.flatten ∧
    (runSettleChunks qs (-1)).2.flatten.Nodup ∧
    ∀ p ∈ qs.zip (runSettleChunks qs (-1)).2, ∀ i ∈ p.2,
      i ≤ p.1.maxValidated ∧ p.1.inProg i = false ∧ p.1.pend i = false ∧
        p.1.blocked i = false := by
  obtain ⟨n, h1, h2, h3⟩ := runSettleChunks_spec qs (-1)
  have he : ((runSettleChunks qs (-1)).1 + 1).toNat = n := by omega
  have hf : (runSettleChunks qs (-1)).2.flatten = intsFrom 0 n := by
    rw [h2]
    refine congrArg₂ _ (by omega) rfl
  have hp : ((runSettleChunks qs (-1)).2.flatten).Pairwise (· < ·) := by
    rw [hf]; exact intsFrom_pairwise 0 n
  exact ⟨by rw [he, hf], hp, hp.imp (fun h => ne_of_lt h), h3⟩

/-! ## Dependency graph (claim C7) -/

theorem hasReadDep_iff (txFrom : TxnOutput) (txTo : TxnInput) :
    HasReadDep txFrom txTo = true ↔ ∃ w ∈ txFrom, ∃ r ∈ txTo, r.Path = w.Path := by
  simp [HasReadDep, List.any_eq_true, List.mem_map]

theorem getDepList_mem (io : TxnInputOutput) (i j : Nat) :
    j ∈ getDepList io i ↔
      j < i ∧ HasReadDep (io.allOutputs.getD j []) (io.inputs.getD i []) = true := by
  simp only [getDepList, List.mem_filter, List.mem_reverse, List.mem_range]

theorem getDep_mem (io : TxnInputOutput) (i j : Nat) :
    (∃ l, (i, l) ∈ GetDep io ∧ j ∈ l) ↔
      0 < i ∧ i < io.inputs.length ∧ j ∈ getDepList io i := by
  constructor
  · rintro ⟨l, hl, hj⟩
    simp only [GetDep, List.mem_map, List.mem_filter, List.mem_reverse, List.mem_range,
      Bool.and_eq_true, decide_eq_true_eq, Prod.mk.injEq] at hl
    obtain ⟨i2, ⟨hi2len, hi2pos, _⟩, hi2eq, hleq⟩ := hl
    subst hi2eq
    subst hleq
    exact ⟨hi2pos, hi2len, hj⟩
  · rintro ⟨h1, h2, h3⟩
    refine ⟨getDepList io i, ?_, h3⟩
    simp only [GetDep, List.mem_map, List.mem_filter, List.mem_reverse, List.mem_range,
      Bool.and_eq_true, decide_eq_true_eq, Prod.mk.injEq]
    exact ⟨i, ⟨h2, h1, List.ne_nil_of_mem h3⟩, rfl, rfl⟩

theorem buildDAGEdges_mem (io : TxnInputOutput) (j i : Nat) :
    (j, i) ∈ BuildDAGEdges io ↔ i < io.inputs.length ∧ j ∈ getDepList io i := by
  simp only [BuildDAGEdges, List.mem_flatten, List.mem_map, List.mem_filter,
    List.mem_reverse, List.mem_range, decide_eq_true_eq]
  constructor
  · rintro ⟨l, ⟨i2, ⟨hi2len, hi2pos⟩, rfl⟩, hmem⟩
    obtain ⟨j2, hj2, heq⟩ := List.mem_map.mp hmem
    simp only [Prod.mk.injEq] at heq
    obtain ⟨rfl, rfl⟩ := heq
    exact ⟨hi2len, hj2⟩
  · rintro ⟨h1, h2⟩
    have hpos : 0 < i := Nat.pos_of_ne_zero (by
      intro h0
      subst h0
      exact Nat.not_lt_zero j ((getDepList_mem io 0 j).mp h2).1)
    exact ⟨(getDepList io i).map (fun j2 => (j2, i)), ⟨i, ⟨h1, hpos⟩, rfl⟩,
      List.mem_map.mpr ⟨j, h2, rfl⟩⟩

/-- Counterexample to claim C7 as stated: on `dagIo` both `BuildDAG` and
`GetDep` record a dependency of transaction 1 on transaction 0, although
transaction 1's final read-set has no key in common with transaction 0's
final write-set (the code intersects with the all-write-set instead). -/
theorem dep_graph_final_write_counterexample :
    (∃ l, (1, l) ∈ GetDep dagIo ∧ 0 ∈ l) ∧ (0, 1) ∈ BuildDAGEdges dagIo ∧
      ∀ r ∈ dagIo.inputs.getD 1 [], ∀ w ∈ dagIo.outputs.getD 0 [], r.Path ≠ w.Path := by
  refine ⟨⟨[0], ?_, ?_⟩, ?_, ?_⟩ <;> decide

/-- Claim C7 amended: for every final `TxnInputOutput` and indices `j < i`,
the `BuildDAG` edge set and the `GetDep` dependency map record `j → i`
exactly when transaction `i`'s final read-set has a key in common with
transaction `j`'s recorded all-write-set (every key ever written by any of
`j`'s incarnations), not its final write-set. -/
theorem dependency_graph_edges (io : TxnInputOutput) (i j : Nat) :
    ((j, i) ∈ BuildDAGEdges io ↔
       j < i ∧ i < io.inputs.length ∧
         ∃ r ∈ io.inputs.getD i [], ∃ w ∈ io.allOutputs.getD j [], r.Path = w.Path) ∧
    ((∃ l, (i, l) ∈ GetDep io ∧ j ∈ l) ↔
       j < i ∧ i < io.inputs.length ∧
         ∃ r ∈ io.inputs.getD i [], ∃ w ∈ io.allOutputs.getD j [], r.Path = w.Path) := by
  have hkey : (j < i ∧ HasReadDep (io.allOutputs.getD j []) (io.inputs.getD i []) = true) ↔
      (j < i ∧ ∃ r ∈ io.inputs.getD i [], ∃ w ∈ io.allOutputs.getD j [], r.Path = w.Path) := by
    rw [hasReadDep_iff]
    tauto
  constructor
  · rw [buildDAGEdges_mem, getDepList_mem]
    constructor
    · rintro ⟨h1, h2, h3⟩
      have := hkey.mp ⟨h2, h3⟩
      tauto
    · rintro ⟨h1, h2, h3⟩
      have := hkey.mpr ⟨h1, h3⟩
      tauto
  · rw [getDep_mem, getDepList_mem]
    constructor
    · rintro ⟨h0, h1, h2, h3⟩
      have := hkey.mp ⟨h2, h3⟩
      tauto
    · rintro ⟨h1, h2, h3⟩
      have := hkey.mpr ⟨h1, h3⟩
      exact ⟨by omega, h2, by tauto⟩

/-! ## Status-tracker helper lemmas -/

theorem insertUnique_mem (l : List Int) (x y : Int) :
    y ∈ insertUnique l x ↔ y ∈ l ∨ y = x := by
  unfold insertUnique
  split
  · rename_i h
    constructor
    · exact fun hy => Or.inl hy
    · rintro (hy | rfl)
      · exact hy
      · exact h
  · simp [List.mem_append]

theorem foldl_insertUnique_mem (s : List Int) (acc : List Int) (y : Int) :
    y ∈ s.foldl insertUnique acc ↔ y ∈ acc ∨ y ∈ s := by
  induction s generalizing acc with
  | nil => simp
  | cons a as ih =>
      rw [List.foldl_cons, ih, insertUnique_mem]
      simp only [List.mem_cons]
      tauto

theorem pushPendingSet_eq (m : TaskStatusManager) (s : List Int) :
    m.pushPendingSet s = { m with pending := s.foldl insertUnique m.pending } := by
  induction s generalizing m with
  | nil => rfl
  | cons a as ih =>
      show (m.pushPending a).pushPendingSet as = _
      rw [ih]
      rfl

theorem removeAll_not_mem (l : List Int) (x : Int) : x ∉ removeAll l x := by
  unfold removeAll
  intro h
  have := List.of_mem_filter h
  simp at this

theorem getRevalidationRange_mem (m : TaskStatusManager) (frm i : Int) :
    i ∈ m.getRevalidationRange frm ↔ i ∈ m.complete ∧ frm ≤ i := by
  unfold TaskStatusManager.getRevalidationRange
  simp [List.mem_filter]

/-! ## Revalidation on write-set change (claim C3) -/

/-- Counterexample to claim C3 as stated: in `dropKeyState`, transaction 1's
re-incarnation drops key 0 from its all-write-set (the set changes, with no
key added); transaction 2 had completed execution before the change, yet the
step dispatches `settle(2)` while performing exactly one validation (of
transaction 1) and never re-queues transaction 2 for validation. -/
theorem revalidation_drop_counterexample :
    dropKeyState.lastTxIo.AllWriteSet 1 ≠ [] ∧
      dropKeyResult.txAllOut = [] ∧
      hasNewWrite dropKeyResult.txAllOut (dropKeyState.lastTxIo.AllWriteSet 1) = false ∧
      (2 : Int) ∈ dropKeyState.execTasks.complete ∧
      (stepExec dropKeyState dropKeyResult).1.settleQueue = [0, 1, 2] ∧
      (stepExec dropKeyState dropKeyResult).1.cntTotalValidations = 1 ∧
      (stepExec dropKeyState dropKeyResult).1.validateTasks.pending = [] := by
  refine ⟨?_, ?_, ?_, ?_, ?_, ?_, ?_⟩ <;> decide

/-- Claim C3 amended: when a transaction's re-incarnation writes a key that
no prior incarnation wrote (`hasNewWrite`), every higher-indexed transaction
currently execution-complete is pushed back as pending validation by the
success handling of `Step` (so it is re-validated before the validation
frontier, and hence settlement, can pass it); a change that only drops keys
deletes the dropped entries from the store but triggers no such push. -/
theorem revalidation_on_new_write (s : PEState) (tx inc : Int) (txIn : TxnInput)
    (txOut txAllOut : TxnOutput)
    (hinc : ¬ inc = 0)
    (hnew : hasNewWrite txAllOut (s.lastTxIo.AllWriteSet tx) = true) :
    ∀ i ∈ s.execTasks.complete, tx + 1 ≤ i →
      i ∈ (successHandling s tx inc txIn txOut txAllOut).validateTasks.pending := by
  intro i hi hge
  have hprev : (s.lastTxIo.recordRead tx txIn).AllWriteSet tx = s.lastTxIo.AllWriteSet tx := rfl
  simp only [successHandling, if_neg hinc, hprev, hnew, if_pos rfl]
  show i ∈ insertUnique
    ((s.validateTasks.pushPendingSet (s.execTasks.getRevalidationRange (tx + 1))).pending) tx
  rw [insertUnique_mem, pushPendingSet_eq]
  refine Or.inl ?_
  show i ∈ (s.execTasks.getRevalidationRange (tx + 1)).foldl insertUnique s.validateTasks.pending
  rw [foldl_insertUnique_mem, getRevalidationRange_mem]
  exact Or.inr ⟨hi, hge⟩

/-- Witness for the amended C3 on `dropKeyState` with a result whose
all-write-set holds the new key 1. -/
theorem revalidation_on_new_write_witness :
    ¬ (1 : Int) = 0 ∧
      hasNewWrite [{ Path := 1, V := { TxnIndex := 1, Incarnation := 1 } }]
        (dropKeyState.lastTxIo.AllWriteSet 1) = true ∧
      ∀ i ∈ dropKeyState.execTasks.complete, (1 : Int) + 1 ≤ i →
        i ∈ (successHandling dropKeyState 1 1 [] []
              [{ Path := 1, V := { TxnIndex := 1, Incarnation := 1 } }]).validateTasks.pending :=
  ⟨by decide, by decide,
    revalidation_on_new_write dropKeyState 1 1 [] []
      [{ Path := 1, V := { TxnIndex := 1, Incarnation := 1 } }] (by decide) (by decide)⟩

/-! ## Validation failure (claim C4) -/

theorem mvMark_establish (m : MVHashMap) (k : Key) (tx : Int) :
    ∀ e ∈ MVMarkEstimate m k tx, e.path = k → e.txIdx = tx → e.cell = MVCell.estimate := by
  intro e he hp ht
  obtain ⟨e0, he0, heq⟩ := List.mem_map.mp he
  by_cases hc : e0.path = k ∧ e0.txIdx = tx
  · rw [if_pos hc] at heq
    rw [← heq]
  · rw [if_neg hc] at heq
    subst heq
    exact absurd ⟨hp, ht⟩ hc

theorem mvMark_preserve (m : MVHashMap) (k2 : Key) (tx2 : Int) (k : Key) (tx : Int)
    (hm : ∀ e ∈ m, e.path = k → e.txIdx = tx → e.cell = MVCell.estimate) :
    ∀ e ∈ MVMarkEstimate m k2 tx2, e.path = k → e.txIdx = tx → e.cell = MVCell.estimate := by
  intro e he hp ht
  obtain ⟨e0, he0, heq⟩ := List.mem_map.mp he
  by_cases hc : e0.path = k2 ∧ e0.txIdx = tx2
  · rw [if_pos hc] at heq
    rw [← heq]
  · rw [if_neg hc] at heq
    subst heq
    exact hm e0 he0 hp ht

theorem foldl_mark_preserve (ws : List WriteDescriptor) (tx : Int) (k : Key) (tx0 : Int) :
    ∀ m : MVHashMap, (∀ e ∈ m, e.path = k → e.txIdx = tx0 → e.cell = MVCell.estimate) →
      ∀ e ∈ ws.foldl (fun m2 v => MVMarkEstimate m2 v.Path tx) m,
        e.path = k → e.txIdx = tx0 → e.cell = MVCell.estimate := by
  induction ws with
  | nil =>
      intro m hm
      simpa using hm
  | cons a as ih =>
      intro m hm
      rw [List.foldl_cons]
      exact ih _ (mvMark_preserve m a.Path tx k tx0 hm)

theorem foldl_mark_marks (ws : List WriteDescriptor) (tx : Int) (w : WriteDescriptor) :
    w ∈ ws → ∀ m : MVHashMap,
      ∀ e ∈ ws.foldl (fun m2 v => MVMarkEstimate m2 v.Path tx) m,
        e.path = w.Path → e.txIdx = tx → e.cell = MVCell.estimate := by
  induction ws with
  | nil =>
      intro h
      simp at h
  | cons a as ih =>
      intro hw m
      rw [List.foldl_cons]
      rcases List.mem_cons.mp hw with rfl | hw2
      · exact foldl_mark_preserve as tx w.Path tx _ (mvMark_establish m w.Path tx)
      · exact ih hw2 _

theorem validateOne_fail (s : PEState) (tx : Int)
    (hskip : s.skipCheck tx = false)
    (hval : ValidateVersion tx s.lastTxIo s.mvh = false) :
    validateOne s tx =
      validateFailBranch { s with cntTotalValidations := s.cntTotalValidations + 1 } tx := by
  unfold validateOne
  rw [if_neg]
  intro h
  simp only [hskip, hval, Bool.or_self] at h
  exact absurd h (by simp)

theorem validateFailBranch_effects (s0 : PEState) (tx : Int) :
    (∀ w ∈ s0.lastTxIo.AllWriteSet tx, ∀ e ∈ (validateFailBranch s0 tx).mvh,
        e.path = w.Path → e.txIdx = tx → e.cell = MVCell.estimate) ∧
    (∀ i ∈ s0.execTasks.complete, tx + 1 ≤ i →
        i ∈ (validateFailBranch s0 tx).validateTasks.pending) ∧
    tx ∉ (validateFailBranch s0 tx).execTasks.complete ∧
    tx ∈ (validateFailBranch s0 tx).execTasks.pending ∧
    (validateFailBranch s0 tx).txIncarnations tx = s0.txIncarnations tx + 1 := by
  refine ⟨?_, ?_, ?_, ?_, ?_⟩
  · intro w hw e he hp ht
    exact foldl_mark_marks _ tx w hw s0.mvh e he hp ht
  · intro i hi hge
    show i ∈ (s0.validateTasks.pushPendingSet
      (s0.execTasks.getRevalidationRange (tx + 1))).pending
    rw [pushPendingSet_eq]
    show i ∈ (s0.execTasks.getRevalidationRange (tx + 1)).foldl insertUnique
      s0.validateTasks.pending
    rw [foldl_insertUnique_mem, getRevalidationRange_mem]
    exact Or.inr ⟨hi, hge⟩
  · show tx ∉ removeAll s0.execTasks.complete tx
    exact removeAll_not_mem _ tx
  · show tx ∈ insertUnique s0.execTasks.pending tx
    rw [insertUnique_mem]
    exact Or.inr rfl
  · simp [validateFailBranch]

/-- Claim C4: when validation of a completed transaction `tx` fails, the
scheduler (1) marks every key of `tx`'s recorded all-write-set as an ESTIMATE
in the multi-version store, (2) pushes every currently execution-complete
index at or above `tx + 1` back as pending validation, (3) moves `tx` from
execution-complete back to execution-pending, and (4) increments `tx`'s
incarnation counter. -/
theorem validation_failure_effects (s : PEState) (tx : Int)
    (hskip : s.skipCheck tx = false)
    (hval : ValidateVersion tx s.lastTxIo s.mvh = false) :
    (∀ w ∈ s.lastTxIo.AllWriteSet tx, ∀ e ∈ (validateOne s tx).mvh,
        e.path = w.Path → e.txIdx = tx → e.cell = MVCell.estimate) ∧
    (∀ i ∈ s.execTasks.complete, tx + 1 ≤ i →
        i ∈ (validateOne s tx).validateTasks.pending) ∧
    tx ∉ (validateOne s tx).execTasks.complete ∧
    tx ∈ (validateOne s tx).execTasks.pending ∧
    (validateOne s tx).txIncarnations tx = s.txIncarnations tx + 1 := by
  rw [validateOne_fail s tx hskip hval]
  exact validateFailBranch_effects { s with cntTotalValidations := s.cntTotalValidations + 1 } tx

/-- Witness for C4 on `failValState` at transaction 1. -/
theorem validation_failure_effects_witness :
    failValState.skipCheck 1 = false ∧
      ValidateVersion 1 failValState.lastTxIo failValState.mvh = false ∧
      ((∀ w ∈ failValState.lastTxIo.AllWriteSet 1, ∀ e ∈ (validateOne failValState 1).mvh,
          e.path = w.Path → e.txIdx = 1 → e.cell = MVCell.estimate) ∧
       (∀ i ∈ failValState.execTasks.complete, (1 : Int) + 1 ≤ i →
          i ∈ (validateOne failValState 1).validateTasks.pending) ∧
       (1 : Int) ∉ (validateOne failValState 1).execTasks.complete ∧
       (1 : Int) ∈ (validateOne failValState 1).execTasks.pending ∧
       (validateOne failValState 1).txIncarnations 1 = failValState.txIncarnations 1 + 1) :=
  ⟨by decide, by decide, validation_failure_effects failValState 1 (by decide) (by decide)⟩

/-! ## Abort handling (claim C5) -/

theorem popEstimatesAbove_sorted (d : Int) (l : List Int) (h : l.Pairwise (· ≤ ·)) :
    (popEstimatesAbove l.length l d).2 = l.filter (fun e => e ≤ d) := by
  induction l using List.reverseRecOn with
  | nil => rfl
  | append_singleton xs x ih =>
      have hxs : xs.Pairwise (· ≤ ·) :=
        List.Pairwise.sublist (List.sublist_append_left xs [x]) h
      have hbound : ∀ a ∈ xs, a ≤ x := by
        intro a ha
        exact (List.pairwise_append.mp h).2.2 a ha x (by simp)
      have hlen : (xs ++ [x]).length = xs.length + 1 := by simp
      rw [hlen]
      by_cases hc : d < x
      · have hstep : (popEstimatesAbove (xs.length + 1) (xs ++ [x]) d).2 =
            (popEstimatesAbove xs.length xs d).2 := by
          simp only [popEstimatesAbove, List.getLast?_concat, List.dropLast_concat,
            if_pos hc]
        rw [hstep, ih hxs, List.filter_append]
        have hx : List.filter (fun e => decide (e ≤ d)) [x] = [] := by
          simp [show ¬ x ≤ d by omega]
        rw [hx, List.append_nil]
      · have hstep : (popEstimatesAbove (xs.length + 1) (xs ++ [x]) d).2 = xs ++ [x] := by
          simp only [popEstimatesAbove, List.getLast?_concat, List.dropLast_concat,
            if_neg hc]
        rw [hstep]
        refine (List.filter_eq_self.mpr ?_).symm
        intro a ha
        rcases List.mem_append.mp ha with h1 | h1
        · have := hbound a h1
          simp only [decide_eq_true_eq]
          omega
        · simp only [List.mem_singleton] at h1
          subst h1
          simp only [decide_eq_true_eq]
          omega

theorem addDependencies_spec (m : TaskStatusManager) (b t : Int) :
    (m.addDependencies b t).2.inProgress = m.inProgress ∧
    (m.addDependencies b t).2.complete = m.complete ∧
    ((m.addDependencies b t).1 = true ↔ b ∉ m.complete) ∧
    (b ∉ m.complete → (b, t) ∈ (m.addDependencies b t).2.blockers) ∧
    (m.addDependencies b t).2.pending =
      (if b ∈ m.complete then m.pending else removeAll m.pending t) := by
  unfold TaskStatusManager.addDependencies
  by_cases h : b ∈ m.complete
  · rw [if_pos h]
    simp [h]
  · rw [if_neg h]
    refine ⟨rfl, rfl, by simp [h], ?_, by rw [if_neg h]⟩
    intro _
    show (b, t) ∈ (if (b, t) ∈ m.blockers then m.blockers else m.blockers ++ [(b, t)])
    split
    · assumption
    · simp

theorem foldl_removeDependency_complete (l : List Int) (m : TaskStatusManager) :
    (l.foldl TaskStatusManager.removeDependency m).complete = m.complete := by
  induction l generalizing m with
  | nil => rfl
  | cons a as ih =>
      rw [List.foldl_cons, ih]
      rfl

theorem abortCommon_estimateDeps (added : Bool) (s1 : PEState) (tx : Int) :
    (abortCommon added s1 tx).estimateDeps = s1.estimateDeps := rfl

theorem abortCommon_inProgress (added : Bool) (s1 : PEState) (tx : Int) :
    (abortCommon added s1 tx).execTasks.inProgress =
      removeAll s1.execTasks.inProgress tx := by
  cases added <;> rfl

theorem abortCommon_blockers (added : Bool) (s1 : PEState) (tx : Int) :
    (abortCommon added s1 tx).execTasks.blockers = s1.execTasks.blockers := by
  cases added <;> rfl

theorem abortCommon_pending (added : Bool) (s1 : PEState) (tx : Int) :
    (abortCommon added s1 tx).execTasks.pending =
      (if added then s1.execTasks.pending else insertUnique s1.execTasks.pending tx) := by
  cases added <;> rfl

theorem abortCommon_txIncarnations (added : Bool) (s1 : PEState) (tx : Int) :
    (abortCommon added s1 tx).txIncarnations tx = s1.txIncarnations tx + 1 := by
  cases added <;> simp [abortCommon]

theorem abortBranch_effects (s : PEState) (tx b : Int) (m : TaskStatusManager)
    (f : Int → List Int) :
    (abortCommon (m.addDependencies b tx).1
        { s with execTasks := (m.addDependencies b tx).2, estimateDeps := f }
        tx).estimateDeps = f ∧
    (b ∉ m.complete → (b, tx) ∈ (abortCommon (m.addDependencies b tx).1
        { s with execTasks := (m.addDependencies b tx).2, estimateDeps := f }
        tx).execTasks.blockers) ∧
    tx ∉ (abortCommon (m.addDependencies b tx).1
        { s with execTasks := (m.addDependencies b tx).2, estimateDeps := f }
        tx).execTasks.inProgress ∧
    (tx ∈ (abortCommon (m.addDependencies b tx).1
        { s with execTasks := (m.addDependencies b tx).2, estimateDeps := f }
        tx).execTasks.pending ↔ b ∈ m.complete) ∧
    (abortCommon (m.addDependencies b tx).1
        { s with execTasks := (m.addDependencies b tx).2, estimateDeps := f }
        tx).txIncarnations tx = s.txIncarnations tx + 1 := by
  obtain ⟨h1, h2, h3, h4, h5⟩ := addDependencies_spec m b tx
  refine ⟨rfl, ?_, ?_, ?_, ?_⟩
  · intro hb
    rw [abortCommon_blockers]
    exact h4 hb
  · rw [abortCommon_inProgress]
    exact removeAll_not_mem _ tx
  · rw [abortCommon_pending]
    by_cases hb : b ∈ m.complete
    · have hr : m.addDependencies b tx = (false, m) := by
        unfold TaskStatusManager.addDependencies
        rw [if_pos hb]
      rw [hr]
      simp [insertUnique_mem, hb]
    · have hr1 : (m.addDependencies b tx).1 = true := h3.mpr hb
      rw [hr1]
      simp only [if_pos rfl, if_true]
      constructor
      · intro hmem
        exact absurd (h5 ▸ hmem) (by
          rw [if_neg hb]
          exact removeAll_not_mem m.pending tx)
      · intro hmem
        exact absurd hmem hb
  · rw [abortCommon_txIncarnations]

/-- Claim C5: on a dependency-conflict result for `tx`: with an explicit
conflicting index `dep >= 0`, every recorded estimate above `dep` is
discarded and a dependency of `tx` on `dep` is recorded (unless `dep` is
already complete, in which case the add is a no-op); with no index, the
estimate `estimate + (estimate+tx)/2` clamped strictly below `tx` is
appended and `tx` is made dependent on the last estimate (or 0); in both
cases `tx` leaves in-progress, is re-queued as pending exactly when no new
dependency was recorded, and its incarnation counter is incremented. -/
theorem abort_handling_effects (s : PEState) (tx dep : Int)
    (hsorted : (s.estimateDeps tx).Pairwise (· ≤ ·)) :
    (0 ≤ dep → (abortHandling s tx dep).estimateDeps tx =
        (s.estimateDeps tx).filter (fun e => e ≤ dep)) ∧
    (dep < 0 → (abortHandling s tx dep).estimateDeps tx =
        s.estimateDeps tx ++ [synthEstimate (lastEstimate (s.estimateDeps tx)) tx]) ∧
    ((if 0 ≤ dep then dep else lastEstimate (s.estimateDeps tx)) ∉ s.execTasks.complete →
        ((if 0 ≤ dep then dep else lastEstimate (s.estimateDeps tx)), tx) ∈
          (abortHandling s tx dep).execTasks.blockers) ∧
    tx ∉ (abortHandling s tx dep).execTasks.inProgress ∧
    (tx ∈ (abortHandling s tx dep).execTasks.pending ↔
        (if 0 ≤ dep then dep else lastEstimate (s.estimateDeps tx)) ∈
          s.execTasks.complete) ∧
    (abortHandling s tx dep).txIncarnations tx = s.txIncarnations tx + 1 := by
  by_cases hdep : 0 ≤ dep
  · have hak : abortHandling s tx dep = abortKnownDep s tx dep := by
      unfold abortHandling
      rw [if_pos hdep]
    rw [hak, if_pos hdep]
    have hbr := abortBranch_effects s tx dep
      ((popEstimatesAbove (s.estimateDeps tx).length (s.estimateDeps tx) dep).1.foldl
        TaskStatusManager.removeDependency s.execTasks)
      (fun t => if t = tx then
          (popEstimatesAbove (s.estimateDeps tx).length (s.estimateDeps tx) dep).2
        else s.estimateDeps t)
    have hcc : ((popEstimatesAbove (s.estimateDeps tx).length (s.estimateDeps tx) dep).1.foldl
        TaskStatusManager.removeDependency s.execTasks).complete = s.execTasks.complete :=
      foldl_removeDependency_complete _ _
    rw [hcc] at hbr
    obtain ⟨hb1, hb2, hb3, hb4, hb5⟩ := hbr
    have hA : (abortKnownDep s tx dep).estimateDeps = (fun t => if t = tx then
        (popEstimatesAbove (s.estimateDeps tx).length (s.estimateDeps tx) dep).2
      else s.estimateDeps t) := hb1
    refine ⟨?_, ?_, ?_, ?_, ?_, ?_⟩
    · intro _
      rw [hA]
      simp only [if_pos rfl]
      exact popEstimatesAbove_sorted dep (s.estimateDeps tx) hsorted
    · intro hneg
      exact absurd hneg (by omega)
    · exact hb2
    · exact hb3
    · exact hb4
    · exact hb5
  · have hak : abortHandling s tx dep = abortNoDep s tx := by
      unfold abortHandling
      rw [if_neg hdep]
    rw [hak, if_neg hdep]
    have hbr := abortBranch_effects s tx (lastEstimate (s.estimateDeps tx)) s.execTasks
      (fun t => if t = tx then
          s.estimateDeps tx ++ [synthEstimate (lastEstimate (s.estimateDeps tx)) tx]
        else s.estimateDeps t)
    obtain ⟨hb1, hb2, hb3, hb4, hb5⟩ := hbr
    have hA : (abortNoDep s tx).estimateDeps = (fun t => if t = tx then
        s.estimateDeps tx ++ [synthEstimate (lastEstimate (s.estimateDeps tx)) tx]
      else s.estimateDeps t) := hb1
    refine ⟨?_, ?_, ?_, ?_, ?_, ?_⟩
    · intro hpos
      exact absurd hpos hdep
    · intro _
      rw [hA]
      simp
    · exact hb2
    · exact hb3
    · exact hb4
    · exact hb5

/-- Witness for C5 on `dropKeyState` at transaction 1 with reported
dependency 0 (which is already complete there). -/
theorem abort_handling_effects_witness :
    (dropKeyState.estimateDeps 1).Pairwise (· ≤ ·) ∧
      ((0 ≤ (0 : Int) → (abortHandling dropKeyState 1 0).estimateDeps 1 =
          (dropKeyState.estimateDeps 1).filter (fun e => e ≤ 0)) ∧
       ((0 : Int) < 0 → (abortHandling dropKeyState 1 0).estimateDeps 1 =
          dropKeyState.estimateDeps 1 ++
            [synthEstimate (lastEstimate (dropKeyState.estimateDeps 1)) 1]) ∧
       ((if 0 ≤ (0 : Int) then (0 : Int) else lastEstimate (dropKeyState.estimateDeps 1)) ∉
            dropKeyState.execTasks.complete →
          ((if 0 ≤ (0 : Int) then (0 : Int) else lastEstimate (dropKeyState.estimateDeps 1)), 1) ∈
            (abortHandling dropKeyState 1 0).execTasks.blockers) ∧
       (1 : Int) ∉ (abortHandling dropKeyState 1 0).execTasks.inProgress ∧
       ((1 : Int) ∈ (abortHandling dropKeyState 1 0).execTasks.pending ↔
          (if 0 ≤ (0 : Int) then (0 : Int) else lastEstimate (dropKeyState.estimateDeps 1)) ∈
            dropKeyState.execTasks.complete) ∧
       (abortHandling dropKeyState 1 0).txIncarnations 1 = dropKeyState.txIncarnations 1 + 1) :=
  ⟨by decide, abort_handling_effects dropKeyState 1 0 (by decide)⟩

/-! ## Priority queue (claim C10) -/

theorem getD_append_lt (l l2 : List Int) (n : Nat) (d : Int) (h : n < l.length) :
    (l ++ l2).getD n d = l.getD n d := by
  rw [List.getD_eq_getElem?_getD, List.getD_eq_getElem?_getD, List.getElem?_append, if_pos h]

theorem getD_concat_length (l : List Int) (v d : Int) :
    (l ++ [v]).getD l.length d = v := by
  rw [List.getD_eq_getElem?_getD, List.getElem?_append, if_neg (by omega)]
  simp

theorem mem_iff_getD (l : List Int) (x : Int) :
    x ∈ l ↔ ∃ k, k < l.length ∧ l.getD k 0 = x := by
  rw [List.mem_iff_getElem]
  constructor
  · rintro ⟨n, h, rfl⟩
    exact ⟨n, h, List.getD_eq_getElem l 0 h⟩
  · rintro ⟨k, hk, hx⟩
    exact ⟨k, hk, by rw [← List.getD_eq_getElem l 0 hk, hx]⟩

theorem goSwap_length (l : List Int) (i j : Nat) : (goSwap l i j).length = l.length := by
  simp [goSwap]

theorem goSwap_getD_ne (l : List Int) (i j k : Nat) (d : Int) (hki : k ≠ i) (hkj : k ≠ j) :
    (goSwap l i j).getD k d = l.getD k d := by
  unfold goSwap
  rw [List.getD_eq_getElem?_getD, List.getElem?_set, if_neg (fun hh => hkj hh.symm),
    List.getElem?_set, if_neg (fun hh => hki hh.symm), ← List.getD_eq_getElem?_getD]

theorem goSwap_getD_atJ (l : List Int) (i j : Nat) (hj : j < l.length) :
    (goSwap l i j).getD j 0 = l.getD i 0 := by
  unfold goSwap
  rw [List.getD_eq_getElem?_getD, List.getElem?_set, if_pos rfl,
    if_pos (by simpa using hj)]
  rfl

theorem goSwap_getD_atI (l : List Int) (i j : Nat) (hij : i ≠ j) (hi : i < l.length) :
    (goSwap l i j).getD i 0 = l.getD j 0 := by
  unfold goSwap
  rw [List.getD_eq_getElem?_getD, List.getElem?_set, if_neg (fun hh => hij hh.symm),
    List.getElem?_set, if_pos rfl, if_pos hi]
  rfl

theorem goSwap_mem (l : List Int) (i j : Nat) (x : Int) (hi : i < l.length)
    (hj : j < l.length) :
    x ∈ goSwap l i j ↔ x ∈ l := by
  have hlen : (goSwap l i j).length = l.length := goSwap_length l i j
  constructor
  · intro hx
    obtain ⟨k, hk, hkx⟩ := (mem_iff_getD _ x).mp hx
    rw [hlen] at hk
    by_cases hkj : k = j
    · rw [hkj, goSwap_getD_atJ l i j hj] at hkx
      exact (mem_iff_getD l x).mpr ⟨i, hi, hkx⟩
    · by_cases hki : k = i
      · rw [hki] at hkj
        rw [hki, goSwap_getD_atI l i j hkj hi] at hkx
        exact (mem_iff_getD l x).mpr ⟨j, hj, hkx⟩
      · rw [goSwap_getD_ne l i j k 0 hki hkj] at hkx
        exact (mem_iff_getD l x).mpr ⟨k, hk, hkx⟩
  · intro hx
    obtain ⟨k, hk, hkx⟩ := (mem_iff_getD _ x).mp hx
    by_cases hki : k = i
    · subst hki
      refine (mem_iff_getD _ x).mpr ⟨j, by omega, ?_⟩
      rw [goSwap_getD_atJ l k j hj]
      exact hkx
    · by_cases hkj : k = j
      · subst hkj
        by_cases hij : i = k
        · subst hij
          exact absurd rfl hki
        · refine (mem_iff_getD _ x).mpr ⟨i, by omega, ?_⟩
          rw [goSwap_getD_atI l i k hij hi]
          exact hkx
      · refine (mem_iff_getD _ x).mpr ⟨k, by omega, ?_⟩
        rw [goSwap_getD_ne l i j k 0 hki hkj]
        exact hkx

theorem siftUp_spec (fuel : Nat) :
    ∀ (l : List Int) (j : Nat), j < fuel → j < l.length →
      (siftUp fuel l j).length = l.length ∧
      (∀ x, x ∈ siftUp fuel l j ↔ x ∈ l) ∧
      (RootMinExcept l j → RootMin (siftUp fuel l j)) := by
  induction fuel with
  | zero =>
      intro l j h
      omega
  | succ fuel ih =>
      intro l j hjf hjl
      by_cases hj0 : j = 0
      · subst hj0
        have e : siftUp (fuel + 1) l 0 = l := by
          show (if 0 = 0 then l
            else if l.getD 0 0 < l.getD ((0 - 1) / 2) 0 then
              siftUp fuel (goSwap l ((0 - 1) / 2) 0) ((0 - 1) / 2)
            else l) = l
          rw [if_pos rfl]
        rw [e]
        refine ⟨rfl, fun x => Iff.rfl, ?_⟩
        intro hex k hk
        by_cases hk0 : k = 0
        · subst hk0
          exact le_refl _
        · exact hex k hk hk0
      · have hij : (j - 1) / 2 < j := by omega
        have hil : (j - 1) / 2 < l.length := lt_trans hij hjl
        by_cases hcmp : l.getD j 0 < l.getD ((j - 1) / 2) 0
        · have e : siftUp (fuel + 1) l j =
              siftUp fuel (goSwap l ((j - 1) / 2) j) ((j - 1) / 2) := by
            show (if j = 0 then l
              else if l.getD j 0 < l.getD ((j - 1) / 2) 0 then
                siftUp fuel (goSwap l ((j - 1) / 2) j) ((j - 1) / 2)
              else l) = _
            rw [if_neg hj0, if_pos hcmp]
          rw [e]
          have hlen2 : (goSwap l ((j - 1) / 2) j).length = l.length := goSwap_length _ _ _
          obtain ⟨ih1, ih2, ih3⟩ := ih (goSwap l ((j - 1) / 2) j) ((j - 1) / 2)
            (by omega) (by rw [hlen2]; exact hil)
          refine ⟨by rw [ih1, hlen2], ?_, ?_⟩
          · intro x
            rw [ih2 x]
            exact goSwap_mem l _ j x hil hjl
          · intro hex
            apply ih3
            intro k hk hki
            rw [hlen2] at hk
            have hijne : (j - 1) / 2 ≠ j := by omega
            by_cases hi0 : (j - 1) / 2 = 0
            · have hroot : (goSwap l ((j - 1) / 2) j).getD 0 0 = l.getD j 0 := by
                rw [← hi0]
                rw [goSwap_getD_atI l ((j - 1) / 2) j hijne hil]
              rw [hroot]
              by_cases hkj : k = j
              · rw [hkj, goSwap_getD_atJ l ((j - 1) / 2) j hjl]
                omega
              · rw [goSwap_getD_ne l ((j - 1) / 2) j k 0 hki hkj]
                have h1 : l.getD 0 0 ≤ l.getD k 0 := hex k hk hkj
                rw [hi0] at hcmp
                omega
            · have hroot : (goSwap l ((j - 1) / 2) j).getD 0 0 = l.getD 0 0 := by
                rw [goSwap_getD_ne l ((j - 1) / 2) j 0 0 (fun hh => hi0 hh.symm)
                  (fun hh => hj0 hh.symm)]
              rw [hroot]
              by_cases hkj : k = j
              · rw [hkj, goSwap_getD_atJ l ((j - 1) / 2) j hjl]
                exact hex _ hil hijne
              · rw [goSwap_getD_ne l ((j - 1) / 2) j k 0 hki hkj]
                exact hex k hk hkj
        · have e : siftUp (fuel + 1) l j = l := by
            show (if j = 0 then l
              else if l.getD j 0 < l.getD ((j - 1) / 2) 0 then
                siftUp fuel (goSwap l ((j - 1) / 2) j) ((j - 1) / 2)
              else l) = l
            rw [if_neg hj0, if_neg hcmp]
          rw [e]
          refine ⟨rfl, fun x => Iff.rfl, ?_⟩
          intro hex k hk
          by_cases hkj : k = j
          · have h1 : l.getD 0 0 ≤ l.getD ((j - 1) / 2) 0 := hex _ hil (by omega)
            rw [hkj]
            omega
          · exact hex k hk hkj

theorem heapPush_spec (l : List Int) (v : Int) (hmin : RootMin l) :
    (heapPush l v).length = l.length + 1 ∧
    (∀ x, x ∈ heapPush l v ↔ x ∈ l ∨ x = v) ∧
    RootMin (heapPush l v) := by
  obtain ⟨h1, h2, h3⟩ := siftUp_spec (l.length + 1) (l ++ [v]) l.length (by omega) (by simp)
  refine ⟨?_, ?_, ?_⟩
  · rw [heapPush, h1]
    simp
  · intro x
    rw [heapPush, h2 x, List.mem_append, List.mem_singleton]
  · apply h3
    intro k hk hkne
    simp only [List.length_append, List.length_singleton] at hk
    have hk2 : k < l.length := by omega
    have h0 : 0 < l.length := by omega
    rw [getD_append_lt _ _ _ _ hk2, getD_append_lt _ _ _ _ h0]
    exact hmin k hk2

theorem rootMin_le_mem (l : List Int) (h : RootMin l) : ∀ x ∈ l, l.getD 0 0 ≤ x := by
  intro x hx
  obtain ⟨k, hk, hkx⟩ := (mem_iff_getD l x).mp hx
  rw [← hkx]
  exact h k hk

theorem root_mem (l : List Int) (h : l ≠ []) : l.getD 0 0 ∈ l := by
  refine (mem_iff_getD l _).mpr ⟨0, ?_, rfl⟩
  cases l with
  | nil => exact absurd rfl h
  | cons a as => simp

theorem siftDown_getD_ge (fuel : Nat) :
    ∀ (l : List Int) (i n k : Nat), n ≤ k →
      (siftDown fuel l i n).getD k 0 = l.getD k 0 := by
  induction fuel with
  | zero =>
      intro l i n k h
      rfl
  | succ fuel ih =>
      intro l i n k h
      by_cases h1 : 2 * i + 1 < n
      · by_cases hc : 2 * i + 2 < n ∧ l.getD (2 * i + 2) 0 < l.getD (2 * i + 1) 0
        · have e : siftDown (fuel + 1) l i n =
              (if l.getD (2 * i + 2) 0 < l.getD i 0 then
                siftDown fuel (goSwap l i (2 * i + 2)) (2 * i + 2) n else l) := by
            show (if 2 * i + 1 < n then _ else l) = _
            rw [if_pos h1, if_pos hc]
          rw [e]
          by_cases h2 : l.getD (2 * i + 2) 0 < l.getD i 0
          · rw [if_pos h2, ih _ _ _ _ h,
              goSwap_getD_ne l i (2 * i + 2) k 0 (by omega) (by omega)]
          · rw [if_neg h2]
        · have e : siftDown (fuel + 1) l i n =
              (if l.getD (2 * i + 1) 0 < l.getD i 0 then
                siftDown fuel (goSwap l i (2 * i + 1)) (2 * i + 1) n else l) := by
            show (if 2 * i + 1 < n then _ else l) = _
            rw [if_pos h1, if_neg hc]
          rw [e]
          by_cases h2 : l.getD (2 * i + 1) 0 < l.getD i 0
          · rw [if_pos h2, ih _ _ _ _ h,
              goSwap_getD_ne l i (2 * i + 1) k 0 (by omega) (by omega)]
          · rw [if_neg h2]
      · have e : siftDown (fuel + 1) l i n = l := by
          show (if 2 * i + 1 < n then _ else l) = l
          rw [if_neg h1]
        rw [e]

theorem heapPop_fst (l : List Int) (h : l ≠ []) : (heapPop l).1 = l.getD 0 0 := by
  have hlen : l.length - 1 < l.length := by
    cases l with
    | nil => exact absurd rfl h
    | cons a as => simp
  show (siftDown (l.length - 1) (goSwap l 0 (l.length - 1)) 0 (l.length - 1)).getD
      (l.length - 1) 0 = l.getD 0 0
  rw [siftDown_getD_ge _ _ _ _ _ (le_refl _)]
  exact goSwap_getD_atJ l 0 (l.length - 1) hlen

theorem foldPush_spec (α : Type) (ps : List (Int × α)) :
    ∀ q : SafePriorityQueue α,
      RootMin q.queue →
      ps.Pairwise (fun p p2 => p.1 ≠ p2.1) →
      (∀ p ∈ ps, p.1 ∉ q.queue) →
      (foldPush ps q).queue.length = q.queue.length + ps.length ∧
      (∀ x, x ∈ (foldPush ps q).queue ↔ x ∈ q.queue ∨ ∃ p ∈ ps, p.1 = x) ∧
      RootMin (foldPush ps q).queue ∧
      (∀ p ∈ ps, (foldPush ps q).data p.1 = some p.2) ∧
      (∀ v : Int, v ∉ ps.map Prod.fst → (foldPush ps q).data v = q.data v) := by
  induction ps with
  | nil =>
      intro q hmin hdist hfresh
      refine ⟨by simp [foldPush], fun x => by simp [foldPush], hmin,
        fun p hp => absurd hp (by simp), fun v _ => rfl⟩
  | cons p ps ih =>
      intro q hmin hdist hfresh
      obtain ⟨hp1, hp2, hp3⟩ := heapPush_spec q.queue p.1 hmin
      obtain ⟨hdh, hdt⟩ := List.pairwise_cons.mp hdist
      have hfresh2 : ∀ p2 ∈ ps, p2.1 ∉ (q.Push p.1 p.2).queue := by
        intro p2 hp2m hmem
        rcases (hp2 p2.1).mp hmem with hcase | hcase
        · exact hfresh p2 (List.mem_cons_of_mem p hp2m) hcase
        · exact hdh p2 hp2m hcase.symm
      have hroot2 : RootMin (q.Push p.1 p.2).queue := hp3
      obtain ⟨ih1, ih2, ih3, ih4, ih5⟩ := ih (q.Push p.1 p.2) hroot2 hdt hfresh2
      have hfold : foldPush (p :: ps) q = foldPush ps (q.Push p.1 p.2) := rfl
      rw [hfold]
      refine ⟨?_, ?_, ih3, ?_, ?_⟩
      · rw [ih1]
        have : (q.Push p.1 p.2).queue.length = q.queue.length + 1 := hp1
        rw [this, List.length_cons]
        omega
      · intro x
        have hx1 : x ∈ (q.Push p.1 p.2).queue ↔ x ∈ q.queue ∨ x = p.1 := hp2 x
        rw [ih2 x, hx1]
        constructor
        · rintro ((h | h) | ⟨p2, hp2m, rfl⟩)
          · exact Or.inl h
          · exact Or.inr ⟨p, List.mem_cons_self p ps, h.symm⟩
          · exact Or.inr ⟨p2, List.mem_cons_of_mem p hp2m, rfl⟩
        · rintro (h | ⟨p2, hp2m, rfl⟩)
          · exact Or.inl (Or.inl h)
          · rcases List.mem_cons.mp hp2m with heq | h2
            · rw [heq]
              exact Or.inl (Or.inr rfl)
            · exact Or.inr ⟨p2, h2, rfl⟩
      · intro p2 hp2m
        rcases List.mem_cons.mp hp2m with heq | h2
        · have hnot : p2.1 ∉ ps.map Prod.fst := by
            intro hmem
            obtain ⟨p3, hp3m, hp3e⟩ := List.mem_map.mp hmem
            rw [heq] at hp3e
            exact hdh p3 hp3m hp3e.symm
          rw [ih5 _ hnot, heq]
          show (if p.1 = p.1 then some p.2 else q.data p.1) = some p.2
          rw [if_pos rfl]
        · exact ih4 p2 h2
      · intro v hv
        rw [List.map_cons, List.mem_cons] at hv
        push_neg at hv
        rw [ih5 v hv.2]
        show (if v = p.1 then some p.2 else q.data v) = q.data v
        rw [if_neg hv.1]

/-- Claim C10: for `SafePriorityQueue`, after any sequence of `Push(v, d)`
calls with pairwise-distinct priorities and no intervening `Pop`, `Len`
returns the number of pushed elements and `Pop` returns the datum that was
pushed with the smallest priority. -/
theorem safePriorityQueue_len_pop (α : Type) (ps : List (Int × α))
    (hdist : ps.Pairwise (fun p p2 => p.1 ≠ p2.1)) (hne : ps ≠ []) :
    (foldPush ps (NewSafePriorityQueue α)).Len = ps.length ∧
    ∃ p ∈ ps, (∀ p2 ∈ ps, p.1 ≤ p2.1) ∧
      ((foldPush ps (NewSafePriorityQueue α)).Pop).1 = some p.2 := by
  obtain ⟨h1, h2, h3, h4, h5⟩ := foldPush_spec α ps (NewSafePriorityQueue α)
    (by intro k hk; simp [NewSafePriorityQueue] at hk)
    hdist
    (by intro p hp hmem; simp [NewSafePriorityQueue] at hmem)
  have hlen : (foldPush ps (NewSafePriorityQueue α)).Len = ps.length := by
    rw [SafePriorityQueue.Len, h1]
    simp [NewSafePriorityQueue]
  refine ⟨hlen, ?_⟩
  have hqne : (foldPush ps (NewSafePriorityQueue α)).queue ≠ [] := by
    intro h0
    have h6 := h1
    rw [h0] at h6
    simp [NewSafePriorityQueue] at h6
    exact hne (List.length_eq_zero.mp h6.symm)
  have hrmem : (foldPush ps (NewSafePriorityQueue α)).queue.getD 0 0 ∈
      (foldPush ps (NewSafePriorityQueue α)).queue := root_mem _ hqne
  obtain ⟨p, hpm, hpe⟩ := ((h2 _).mp hrmem).resolve_left (by simp [NewSafePriorityQueue])
  refine ⟨p, hpm, ?_, ?_⟩
  · intro p2 hp2
    have hq2mem : p2.1 ∈ (foldPush ps (NewSafePriorityQueue α)).queue :=
      (h2 p2.1).mpr (Or.inr ⟨p2, hp2, rfl⟩)
    have hle := rootMin_le_mem _ h3 p2.1 hq2mem
    rw [← hpe] at hle
    exact hle
  · have hfst : ((foldPush ps (NewSafePriorityQueue α)).Pop).1 =
        (foldPush ps (NewSafePriorityQueue α)).data
          ((foldPush ps (NewSafePriorityQueue α)).queue.getD 0 0) := by
      show (foldPush ps (NewSafePriorityQueue α)).data
          (heapPop (foldPush ps (NewSafePriorityQueue α)).queue).1 = _
      rw [heapPop_fst _ hqne]
    rw [hfst, ← hpe]
    exact h4 p hpm

/-- Witness for C10 on four pushes with distinct priorities. -/
theorem safePriorityQueue_len_pop_witness :
    ([(5, 50), (3, 30), (8, 80), (1, 10)] : List (Int × Nat)).Pairwise
        (fun p p2 => p.1 ≠ p2.1) ∧
      ((foldPush [(5, 50), (3, 30), (8, 80), (1, 10)]
          (NewSafePriorityQueue Nat)).Len = 4 ∧
       ∃ p ∈ ([(5, 50), (3, 30), (8, 80), (1, 10)] : List (Int × Nat)),
         (∀ p2 ∈ ([(5, 50), (3, 30), (8, 80), (1, 10)] : List (Int × Nat)), p.1 ≤ p2.1) ∧
         ((foldPush [(5, 50), (3, 30), (8, 80), (1, 10)]
             (NewSafePriorityQueue Nat)).Pop).1 = some p.2) :=
  ⟨by decide,
    safePriorityQueue_len_pop Nat [(5, 50), (3, 30), (8, 80), (1, 10)] (by decide) (by decide)⟩
